import Mathlib

/-!
Verification of the OmniRAG retrieval pipeline against its specification.

This file gives a shallow embedding, in Lean 4, of the parts of the code that
the specification's testable properties talk about:

* `app/utils.py` — text chunking (`_chunk_by_words`, `_chunk_by_sentences`,
  `_chunk_by_paragraphs`, `TextProcessor.extract_sentences`);
* `app/search.py` — hybrid search (`HybridSearcher.search`,
  `HybridSearcher._hybrid_search`, `HybridSearcher._normalize_scores`) and
  diversity re-ranking (`ReRanker.rerank_results`);
* `app/embedding.py` — per-document index construction
  (`EnhancedEmbeddingManager.create_faiss_index_with_metadata`) and
  multi-document similarity search
  (`EnhancedEmbeddingManager.search_similar_chunks`);
* `app/advanced_features_backup/cache.py` — the persistent query cache
  (`CacheManager`) and the bounded in-memory TTL cache (`InMemoryCache`).

Machine floats are modelled as rationals, external components (the sentence
embedding model, the FAISS nearest-neighbour kernel, SHA-256) as abstract
parameters or injective codings, and the Python dict/list operations by
explicit association lists, preserving iteration order.
-/

set_option maxRecDepth 100000

namespace OmniRAG

/-! ### `app/utils.py`: text chunking -/

/-- Split a character sequence at every character satisfying `p`, keeping
empty pieces (the behaviour of `re.split` on single characters).  Structural
recursion over the characters, so it evaluates inside the kernel. -/
def splitCharsAux (p : Char → Bool) : List Char → List Char → List (List Char)
  | [], acc => [acc.reverse]
  | c :: cs, acc =>
    if p c then acc.reverse :: splitCharsAux p cs []
    else splitCharsAux p cs (c :: acc)

/-- Split a string at every character satisfying `p`. -/
def splitChars (p : Char → Bool) (s : String) : List String :=
  (splitCharsAux p s.toList []).map List.asString

/-- Python `str.strip()`: drop leading and trailing whitespace. -/
def pyStrip (s : String) : String :=
  (((s.toList.dropWhile Char.isWhitespace).reverse.dropWhile
    Char.isWhitespace).reverse).asString

/-- Python `str.split()` with no argument: split on whitespace and drop the
empty pieces. -/
def pySplit (s : String) : List String :=
  (splitChars (fun c => c.isWhitespace) s).filter (fun w => w != "")

/-- `len(s.split())`, the word count used by the sentence and paragraph
chunkers as the length of a unit. -/
def wordCount (s : String) : Nat := (pySplit s).length

/-- `TextProcessor.extract_sentences`: split the text on the sentence
terminators `.`, `!`, `?`, strip each piece, and keep the pieces whose
stripped length exceeds 10 characters. -/
def extract_sentences (text : String) : List String :=
  ((splitChars (fun c => c == '.' || c == '!' || c == '?') text).map pyStrip).filter
    (fun s => 10 < s.length)

/-- The slice `words[start:finish]` of a word list. -/
def window (words : List String) (start finish : Nat) : List String :=
  (words.drop start).take (finish - start)

/-- The while-loop of `_chunk_by_words`, with explicit fuel.  Each iteration
emits the window `words[start:min(start+max_length, len)]`, breaks when the
window reaches the end, and otherwise advances `start` by
`max_length - overlap`.  `none` means the fuel ran out: the Python loop does
not terminate when `overlap ≥ max_length` and the text is longer than one
window. -/
def chunkWordsLoop (words : List String) (maxLength overlap : Nat) :
    Nat → Nat → Option (List (List String))
  | 0, _ => none
  | fuel + 1, start =>
    if start < words.length then
      let e := min (start + maxLength) words.length
      let chunk := window words start e
      if words.length ≤ e then some [chunk]
      else
        (chunkWordsLoop words maxLength overlap fuel (start + (maxLength - overlap))).map
          (fun rest => chunk :: rest)
    else some []

/-- `_chunk_by_words` on the word list of a text.  Chunks are kept as word
lists; the source joins each chunk with single spaces, which is a bijective
presentation of the same data.  The fuel `words.length + 1` dominates the
iteration count whenever the loop terminates at all. -/
def chunk_by_words (words : List String) (maxLength overlap : Nat) :
    Option (List (List String)) :=
  chunkWordsLoop words maxLength overlap (words.length + 1) 0

/-- The backward scan of `_chunk_by_sentences` that builds the overlap seed:
walk the current chunk from its last sentence backwards, keeping sentences
while the accumulated word count stays within `overlap`, and stop at the
first sentence that does not fit. -/
def overlapRev (overlap : Nat) : Nat → List String → List String
  | _, [] => []
  | acc, s :: rest =>
    if acc + wordCount s ≤ overlap then s :: overlapRev overlap (acc + wordCount s) rest
    else []

/-- The sentences carried into the next chunk as overlap seed, in their
original order (`overlap_sentences` in the source). -/
def overlapTail (overlap : Nat) (cur : List String) : List String :=
  (overlapRev overlap 0 cur.reverse).reverse

/-- Total word count of a list of sentences (`overlap_length` bookkeeping). -/
def weightSum (l : List String) : Nat := (l.map wordCount).sum

/-- The for-loop of `_chunk_by_sentences`: `cur` is `current_chunk` (a list of
sentences), `curLen` is `current_length`.  When adding the next sentence would
exceed `max_length` and the current chunk is nonempty, the chunk is flushed
and the overlap seed is carried over; the trailing chunk is flushed after the
loop when nonempty. -/
def chunkSentencesLoop (maxLength overlap : Nat) :
    List String → Nat → List String → List (List String)
  | cur, _, [] => if cur = [] then [] else [cur]
  | cur, curLen, s :: rest =>
    let sl := wordCount s
    if maxLength < curLen + sl ∧ cur ≠ [] then
      let ov := overlapTail overlap cur
      cur :: chunkSentencesLoop maxLength overlap (ov ++ [s]) (weightSum ov + sl) rest
    else
      chunkSentencesLoop maxLength overlap (cur ++ [s]) (curLen + sl) rest

/-- `_chunk_by_sentences`, as a function of the extracted sentence list.
Chunks are kept as sentence lists; the source joins each with spaces. -/
def chunk_by_sentences (sentences : List String) (maxLength overlap : Nat) :
    List (List String) :=
  chunkSentencesLoop maxLength overlap [] 0 sentences

/-- Split a character sequence on every (non-overlapping, leftmost)
occurrence of a blank line separator, i.e. Python `text.split('\n\n')`. -/
def splitParasAux : List Char → List Char → List (List Char)
  | [], acc => [acc.reverse]
  | '\n' :: '\n' :: cs, acc => acc.reverse :: splitParasAux cs []
  | c :: cs, acc => splitParasAux cs (c :: acc)

/-- `[p.strip() for p in text.split('\n\n') if p.strip()]`. -/
def pyParagraphs (text : String) : List String :=
  (((splitParasAux text.toList []).map List.asString).map pyStrip).filter
    (fun p => p != "")

/-- The for-loop of `_chunk_by_paragraphs`: like the sentence loop but a new
chunk restarts from the current paragraph alone — no overlap seed (the
`overlap` argument of the source function is unused). -/
def chunkParagraphsLoop (maxLength : Nat) :
    List String → Nat → List String → List (List String)
  | cur, _, [] => if cur = [] then [] else [cur]
  | cur, curLen, p :: rest =>
    let pl := wordCount p
    if maxLength < curLen + pl ∧ cur ≠ [] then
      cur :: chunkParagraphsLoop maxLength [p] pl rest
    else
      chunkParagraphsLoop maxLength (cur ++ [p]) (curLen + pl) rest

/-- `_chunk_by_paragraphs`, as a function of the paragraph list. -/
def chunk_by_paragraphs (paragraphs : List String) (maxLength : Nat) :
    List (List String) :=
  chunkParagraphsLoop maxLength [] 0 paragraphs

/-- A sample text used to exercise the chunkers on concrete input. -/
def demoText : String :=
  "Alpha beta gamma. This is a long sentence. Another long sentence is here."

/-- A sample 301-word document, one word beyond a single 300-word window. -/
def demoWords : List String := List.replicate 301 "w"

/-- The two chunks that `_chunk_by_words` produces from `demoWords` with
`max_length = 300` and `overlap = 50`. -/
def demoWordChunks : List (List String) :=
  [List.replicate 300 "w", List.replicate 51 "w"]

/-! ### `app/advanced_features_backup/cache.py`: query cache and in-memory cache -/

/-- Insert an integer into an ascending sorted list. -/
def sortedInsert (x : Int) : List Int → List Int
  | [] => [x]
  | y :: ys => if x ≤ y then x :: y :: ys else y :: sortedInsert x ys

/-- Python `sorted()` on a list of integers. -/
def pySorted (l : List Int) : List Int := l.foldr sortedInsert []

/-- `CacheManager._generate_documents_hash`: SHA-256 over the JSON encoding
of `sorted(document_ids)`.  The hash is modelled by the sorted id list
itself: the code only ever compares these hashes for equality, and SHA-256
over the canonical JSON text is injective on sorted id lists (no collision
is ever relied on). -/
def generate_documents_hash (document_ids : List Int) : List Int :=
  pySorted document_ids

/-- A row of the `query_cache` table as used by `CacheManager`
(`documents_hash` carries the modelled hash; timestamps are naturals). -/
structure QueryCacheEntry where
  query_hash : String
  query_text : String
  response_text : String
  documents_hash : List Int
  expires_at : Nat
  hit_count : Nat
  deriving Repr, DecidableEq

/-- `CacheManager.invalidate_document_cache`: when caching is enabled and a
db session is present, delete every row whose `documents_hash` equals the
hash of the given id list, leaving all other rows as they were. -/
def invalidate_document_cache (enabled : Bool) (document_ids : List Int)
    (db : List QueryCacheEntry) : List QueryCacheEntry :=
  if enabled then
    db.filter (fun e => e.documents_hash ≠ generate_documents_hash document_ids)
  else db

/-- A cache row written for the document set `[1, 2]` (as by
`cache_response(query, response, [1, 2])`). -/
def entryFor12 : QueryCacheEntry :=
  { query_hash := "qh", query_text := "q", response_text := "r",
    documents_hash := generate_documents_hash [1, 2],
    expires_at := 1000, hit_count := 0 }

/-- One stored slot of `InMemoryCache`: key, value, and the `time.time()`
timestamp recorded at the write.  List order models Python dict insertion
order. -/
structure MemEntry where
  key : String
  value : String
  timestamp : Nat
  deriving Repr, DecidableEq

/-- The in-memory TTL cache (`InMemoryCache.__init__`). -/
structure InMemoryCache where
  cache : List MemEntry
  max_size : Nat
  ttl : Nat
  deriving Repr, DecidableEq

/-- `key in self.cache` plus the lookup itself, in dict iteration order. -/
def memLookup (key : String) : List MemEntry → Option MemEntry
  | [] => none
  | e :: es => if e.key = key then some e else memLookup key es

/-- `del self.cache[key]` (dict keys are unique, so one binding goes). -/
def memDelete (key : String) : List MemEntry → List MemEntry
  | [] => []
  | e :: es => if e.key = key then es else e :: memDelete key es

/-- `self.cache[key] = (value, ts)`: a Python dict overwrite keeps the
original insertion position; a fresh key is appended at the end. -/
def memSet (key value : String) (ts : Nat) : List MemEntry → List MemEntry
  | [] => [⟨key, value, ts⟩]
  | e :: es =>
    if e.key = key then ⟨key, value, ts⟩ :: es else e :: memSet key value ts es

/-- `min(self.cache.keys(), key=lambda k: self.cache[k][1])`: scan in
iteration order, keeping the first entry with the strictly smallest
timestamp. -/
def oldestAux (best : MemEntry) : List MemEntry → MemEntry
  | [] => best
  | e :: es => if e.timestamp < best.timestamp then oldestAux e es else oldestAux best es

/-- `InMemoryCache.get`: a hit within the TTL returns the value; an expired
entry is deleted and the call misses. -/
def InMemoryCache.get (c : InMemoryCache) (key : String) (now : Nat) :
    Option String × InMemoryCache :=
  match memLookup key c.cache with
  | none => (none, c)
  | some e =>
    if now - e.timestamp < c.ttl then (some e.value, c)
    else (none, { c with cache := memDelete key c.cache })

/-- `InMemoryCache.set`: at capacity, first evict the entry with the oldest
timestamp, then write the new binding.  (With `max_size ≥ 1` the cache is
nonempty whenever the eviction branch runs; on an empty cache Python's
`min` would raise, which is unreachable under that precondition.) -/
def InMemoryCache.set (c : InMemoryCache) (key value : String) (now : Nat) :
    InMemoryCache :=
  let cache :=
    if c.max_size ≤ c.cache.length then
      match c.cache with
      | [] => c.cache
      | e :: es => memDelete (oldestAux e es).key c.cache
    else c.cache
  { c with cache := memSet key value now cache }

/-- `InMemoryCache.delete`. -/
def InMemoryCache.delete (c : InMemoryCache) (key : String) : InMemoryCache :=
  { c with cache := memDelete key c.cache }

/-- A client-visible operation on the in-memory cache, with the wall-clock
time at which it runs. -/
inductive CacheOp where
  | get (key : String) (now : Nat)
  | set (key value : String) (now : Nat)
  | del (key : String)
  deriving Repr, DecidableEq

/-- Apply one operation to the cache state. -/
def runOp (c : InMemoryCache) : CacheOp → InMemoryCache
  | .get k now => (c.get k now).2
  | .set k v now => c.set k v now
  | .del k => c.delete k

/-- Apply a sequence of operations, left to right. -/
def runOps (c : InMemoryCache) : List CacheOp → InMemoryCache
  | [] => c
  | op :: ops => runOps (runOp c op) ops

/-! ### `app/search.py`: hybrid search and diversity re-ranking -/

/-- A `DocumentChunk` row as consumed by search: its id, its owning
document's id, and its text. -/
structure DocumentChunk where
  id : Nat
  document_id : Nat
  content : String
  deriving Repr, DecidableEq

/-- `min(l)` over a nonempty score list (0 is a dummy for the empty list,
which the callers never pass). -/
def listMin : List ℚ → ℚ
  | [] => 0
  | s :: rest => rest.foldl min s

/-- `max(l)` over a nonempty score list. -/
def listMax : List ℚ → ℚ
  | [] => 0
  | s :: rest => rest.foldl max s

/-- `HybridSearcher._normalize_scores`: min-max normalization into `[0, 1]`;
an empty list stays empty and a constant list maps to all `1.0`. -/
def normalize_scores (scores : List ℚ) : List ℚ :=
  if scores = [] then []
  else if listMax scores = listMin scores then scores.map (fun _ => (1 : ℚ))
  else
    scores.map (fun score =>
      (score - listMin scores) / (listMax scores - listMin scores))

/-- Python dict lookup over an association list written in insertion order:
the last write for a key wins. -/
def dictGet : List (Nat × ℚ) → Nat → Option ℚ
  | [], _ => none
  | (k, v) :: rest, key =>
    match dictGet rest key with
    | some w => some w
    | none => if k = key then some v else none

/-- The `keyword_score_map` loop of `_hybrid_search`: pair each keyword
result (a corpus index) with its normalized score, keep only in-range
indices, and key the entry by the chunk id at that index. -/
def buildKeywordScoreMap (chunks : List DocumentChunk)
    (keywordResults : List (Nat × ℚ)) (normScores : List ℚ) : List (Nat × ℚ) :=
  (keywordResults.zip normScores).filterMap (fun p =>
    match chunks[p.1.1]? with
    | some chunk => some (chunk.id, p.2)
    | none => none)

/-- The `semantic_score_map` loop: semantic results already carry chunk
ids. -/
def buildSemanticScoreMap (semanticResults : List (Nat × ℚ))
    (normScores : List ℚ) : List (Nat × ℚ) :=
  (semanticResults.zip normScores).map (fun p => (p.1.1, p.2))

/-- The weighted combination of `_hybrid_search`:
`keyword_weight * keyword_score_map.get(id, 0) +
 semantic_weight * semantic_score_map.get(id, 0)`. -/
def combined_score (kw sw : ℚ) (kMap sMap : List (Nat × ℚ)) (cid : Nat) : ℚ :=
  kw * ((dictGet kMap cid).getD 0) + sw * ((dictGet sMap cid).getD 0)

/-- The combined hybrid score of a chunk id, as `_hybrid_search` computes it
from the two searchers' raw result lists. -/
def hybrid_combined_score (chunks : List DocumentChunk) (kw sw : ℚ)
    (keywordResults semanticResults : List (Nat × ℚ)) (cid : Nat) : ℚ :=
  combined_score kw sw
    (buildKeywordScoreMap chunks keywordResults
      (normalize_scores (keywordResults.map Prod.snd)))
    (buildSemanticScoreMap semanticResults
      (normalize_scores (semanticResults.map Prod.snd)))
    cid

/-- Stable descending insertion by a rational key: a later element goes
after every earlier element whose key is at least its own.  This models
Python's stable `list.sort(key=..., reverse=True)`. -/
def insertDescBy (key : α → ℚ) (x : α) : List α → List α
  | [] => [x]
  | y :: ys => if key x ≤ key y then y :: insertDescBy key x ys else x :: y :: ys

/-- Stable descending sort by a rational key. -/
def sortDescBy (key : α → ℚ) (l : List α) : List α :=
  l.foldl (fun acc x => insertDescBy key x acc) []

/-- The union and combination step of `_hybrid_search` followed by the
descending sort and truncation.  (Python iterates a `set` of ids whose
order is unspecified; the model fixes first-surfaced order, which only
affects tie order among equal combined scores.) -/
def hybrid_search (chunks : List DocumentChunk) (kw sw : ℚ)
    (keywordResults semanticResults : List (Nat × ℚ)) (topK : Nat) :
    List (Nat × ℚ × String) :=
  let kMap := buildKeywordScoreMap chunks keywordResults
    (normalize_scores (keywordResults.map Prod.snd))
  let sMap := buildSemanticScoreMap semanticResults
    (normalize_scores (semanticResults.map Prod.snd))
  let allIds := (kMap.map Prod.fst ++ sMap.map Prod.fst).dedup
  (sortDescBy (fun t => t.2.1)
    (allIds.map (fun cid => (cid, combined_score kw sw kMap sMap cid, "hybrid")))).take topK

/-- `HybridSearcher.search`: dispatch on the strategy string.  The two
searchers' raw outputs are taken as inputs (they wrap external FAISS and
BM25 computations); `keywordResults` carry corpus indices that the
orchestrator maps to chunk ids through `self.chunks` (out-of-range indices,
which would raise in Python, surface as a default id 0 and are excluded by
hypothesis where it matters). -/
def hybridSearcherSearch (chunks : List DocumentChunk) (kw sw : ℚ)
    (keywordResults semanticResults : List (Nat × ℚ)) (topK : Nat)
    (strategy : String) : List (Nat × ℚ × String) :=
  if strategy = "keyword" then
    keywordResults.map (fun p =>
      (((chunks[p.1]?).map DocumentChunk.id).getD 0, p.2, "keyword"))
  else if strategy = "semantic" then
    semanticResults.map (fun p => (p.1, p.2, "semantic"))
  else
    hybrid_search chunks kw sw keywordResults semanticResults topK

/-- The `chunk_lookup` dict of `ReRanker.rerank_results` (`{chunk.id: chunk}`,
last write wins). -/
def chunkById : List DocumentChunk → Nat → Option DocumentChunk
  | [], _ => none
  | c :: cs, cid =>
    match chunkById cs cid with
    | some d => some d
    | none => if c.id = cid then some c else none

/-- The document id a result's chunk id resolves to, if any. -/
def docIdOf (chunks : List DocumentChunk) (cid : Nat) : Option Nat :=
  (chunkById chunks cid).map (fun c => c.document_id)

/-- The greedy walk of `ReRanker.rerank_results` with
`diversity_weight = 0.2`: a result whose chunk id is not in the lookup is
skipped; otherwise `diversity_penalty` is `0.3` when the chunk's document
was already seen, and the adjusted score is
`score * (1 - diversity_penalty * diversity_weight)`. -/
def penalizeWalk (chunks : List DocumentChunk) :
    List Nat → List (Nat × ℚ × String) → List (Nat × ℚ × String)
  | _, [] => []
  | used, r :: rest =>
    match chunkById chunks r.1 with
    | none => penalizeWalk chunks used rest
    | some chunk =>
      let diversity_penalty : ℚ := if chunk.document_id ∈ used then 3/10 else 0
      (r.1, r.2.1 * (1 - diversity_penalty * (2/10)), r.2.2) ::
        penalizeWalk chunks (chunk.document_id :: used) rest

/-- `ReRanker.rerank_results`: empty input returned as is; otherwise the
penalized walk re-sorted descending by adjusted score (stable). -/
def rerank_results (results : List (Nat × ℚ × String))
    (chunks : List DocumentChunk) : List (Nat × ℚ × String) :=
  if results = [] then results
  else sortDescBy (fun t => t.2.1) (penalizeWalk chunks [] results)

/-! ### `app/embedding.py`: per-document index build and multi-document search -/

/-- `os.path.basename`. -/
def basename (p : String) : String :=
  (splitChars (fun c => c == '/') p).getLastD p

/-- A chunk as passed to `create_faiss_index_with_metadata`: either a legacy
plain string or a dict whose `content` field is used (the optional page and
case-metadata fields are carried through and do not affect the invariant
modelled here). -/
inductive ChunkIn where
  | plain (s : String)
  | record (content : String) (page_number : Option Nat)
  deriving Repr, DecidableEq

/-- `chunk["content"] if isinstance(chunk, dict) else chunk`. -/
def contentOf : ChunkIn → String
  | .plain s => s
  | .record c _ => c

/-- One record of the persisted chunk-metadata sidecar (the fields the
positional-correspondence invariant is about). -/
structure ChunkMeta where
  content : String
  chunk_id : Nat
  document_id : Option Int
  source_file : String
  chunk_index : Nat
  word_count : Nat
  char_count : Nat
  deriving Repr, DecidableEq

/-- The artifacts persisted by a successful `create_faiss_index_with_metadata`
call: the vector rows of the FAISS index, the metadata sidecar, and the
returned chunk count. -/
structure BuiltIndex (V : Type) where
  vectors : List V
  metadata : List ChunkMeta
  count : Nat
  deriving Repr, DecidableEq

/-- `EnhancedEmbeddingManager.create_faiss_index_with_metadata`, parametrized
by the external embedding model `encode` and the in-place
`faiss.normalize_L2`, both opaque.  An empty chunk list returns 0 without
writing artifacts (`none` here); otherwise the contents are embedded in
order, normalized, and added to the index row by row while the parallel
metadata list is persisted alongside. -/
def create_faiss_index_with_metadata (V : Type) (encode : String → V)
    (normalizeL2 : V → V) (file_path : String) (document_id : Option Int)
    (chunks : List ChunkIn) : Option (BuiltIndex V) :=
  let chunk_contents := chunks.map contentOf
  let chunk_metadata := chunks.enum.map (fun p =>
    { content := contentOf p.2
      chunk_id := p.1
      document_id := document_id
      source_file := basename file_path
      chunk_index := p.1
      word_count := wordCount (contentOf p.2)
      char_count := (contentOf p.2).length : ChunkMeta })
  if chunk_contents = [] then none
  else
    some { vectors := (chunk_contents.map encode).map normalizeL2
           metadata := chunk_metadata
           count := chunks.length }

/-- A persisted per-document index as `search_similar_chunks` loads it: the
pickled chunk list and the ranked `(score, row)` list that the FAISS index
yields for the query at hand (`index.search(q, n)` returns its first `n`
entries). -/
structure DocIndex where
  chunks : List String
  ranking : List (ℚ × Nat)
  deriving Repr, DecidableEq

/-- The index directory contents: `basename(doc_path) ↦ DocIndex`;
`os.path.exists` is `isSome` of this lookup. -/
def lookupFs : List (String × DocIndex) → String → Option DocIndex
  | [], _ => none
  | (n, d) :: rest, key => if n = key then some d else lookupFs rest key

/-- One result row of `search_similar_chunks`. -/
structure SearchHit where
  content : String
  score : ℚ
  document : String
  chunk_index : Nat
  deriving Repr, DecidableEq

/-- The per-document body of the `search_similar_chunks` loop: load the
index (skipping a missing one), search it with `min(k, len(chunks))`, and
keep rows with an in-range index and score above the 0.1 threshold. -/
def searchOneDoc (fs : List (String × DocIndex)) (k : Nat) (doc_path : String) :
    List SearchHit :=
  match lookupFs fs (basename doc_path) with
  | none => []
  | some d =>
    (d.ranking.take (min k d.chunks.length)).filterMap (fun sc =>
      match d.chunks[sc.2]? with
      | some c =>
        if (1 : ℚ)/10 < sc.1 then
          some { content := c, score := sc.1, document := basename doc_path,
                 chunk_index := sc.2 }
        else none
      | none => none)

/-- `EnhancedEmbeddingManager.search_similar_chunks`: concatenate the
per-document results over `doc_paths`, sort by score descending (stable),
return the top `k`. -/
def search_similar_chunks (fs : List (String × DocIndex))
    (doc_paths : List String) (k : Nat) : List SearchHit :=
  (sortDescBy SearchHit.score (doc_paths.flatMap (searchOneDoc fs k))).take k

/-! ### Concrete sample data for witnesses -/

/-- Two chunks of one document, as the search session indexes them. -/
def demoSearchChunks : List DocumentChunk := [⟨5, 1, "a"⟩, ⟨7, 1, "b"⟩]

/-- A keyword ranking over corpus indices 0 and 1. -/
def demoKRes : List (Nat × ℚ) := [(0, 2), (1, 1)]

/-- A semantic ranking over chunk ids. -/
def demoSRes : List (Nat × ℚ) := [(7, 9/10)]

/-- Two input chunks for a concrete index build. -/
def demoBuiltChunks : List ChunkIn :=
  [ChunkIn.plain "hello", ChunkIn.record "wide world" none]

/-- The artifacts the build writes for `demoBuiltChunks` under encoder
`fun s => s ++ "*"` and identity normalization. -/
def demoBuilt : BuiltIndex String :=
  { vectors := ["hello*", "wide world*"]
    metadata :=
      [{ content := "hello", chunk_id := 0, document_id := some 3,
         source_file := "f.pdf", chunk_index := 0, word_count := 1,
         char_count := 5 },
       { content := "wide world", chunk_id := 1, document_id := some 3,
         source_file := "f.pdf", chunk_index := 1, word_count := 2,
         char_count := 10 }]
    count := 2 }

/-! ### Lemmas about the word-chunking loop -/

theorem chunkWordsLoop_isSome (words : List String) (maxLength overlap : Nat)
    (h : overlap < maxLength) :
    ∀ fuel start, words.length - start < fuel →
      (chunkWordsLoop words maxLength overlap fuel start).isSome := by
  intro fuel
  induction fuel with
  | zero => intro start hs; omega
  | succ n ih =>
    intro start hs
    rw [chunkWordsLoop]
    by_cases h1 : start < words.length
    · rw [if_pos h1]
      by_cases h2 : words.length ≤ min (start + maxLength) words.length
      · rw [if_pos h2]
        rfl
      · rw [if_neg h2, Option.isSome_map']
        apply ih
        omega
    · rw [if_neg h1]
      rfl

theorem mem_window (words : List String) (start e i : Nat)
    (h1 : start ≤ i) (h2 : i < e) (h3 : e ≤ words.length) :
    ∃ hi : i < words.length, words[i] ∈ window words start e := by
  have hi : i < words.length := lt_of_lt_of_le h2 h3
  refine ⟨hi, ?_⟩
  have hlen : i - start < (window words start e).length := by
    simp [window, List.length_take, List.length_drop]
    omega
  have heq : (window words start e)[i - start] = words[i] := by
    simp only [window]
    rw [List.getElem_take, List.getElem_drop]
    congr 1
    omega
  exact heq ▸ List.getElem_mem hlen

theorem chunkWordsLoop_covers (words : List String) (maxLength overlap : Nat) :
    ∀ fuel start chunks,
      chunkWordsLoop words maxLength overlap fuel start = some chunks →
      ∀ i (h1 : start ≤ i) (hi : i < words.length), ∃ c ∈ chunks, words.get ⟨i, hi⟩ ∈ c := by
  intro fuel
  induction fuel with
  | zero => intro start chunks h; simp [chunkWordsLoop] at h
  | succ n ih =>
    intro start chunks h i h1 hi
    rw [chunkWordsLoop] at h
    have hstart : start < words.length := lt_of_le_of_lt h1 hi
    rw [if_pos hstart] at h
    by_cases h2 : words.length ≤ min (start + maxLength) words.length
    · rw [if_pos h2, Option.some_inj] at h
      subst h
      refine ⟨window words start (min (start + maxLength) words.length), by simp, ?_⟩
      obtain ⟨hi2, hm⟩ := mem_window words start (min (start + maxLength) words.length) i h1
        (by omega) (by omega)
      exact hm
    · rw [if_neg h2, Option.map_eq_some'] at h
      obtain ⟨rest, hrest, hchunks⟩ := h
      subst hchunks
      have he : min (start + maxLength) words.length = start + maxLength := by omega
      by_cases h3 : i < start + maxLength
      · refine ⟨window words start (min (start + maxLength) words.length), by simp, ?_⟩
        obtain ⟨hi2, hm⟩ := mem_window words start (min (start + maxLength) words.length) i h1
          (by omega) (by omega)
        exact hm
      · obtain ⟨c, hc, hmem⟩ := ih (start + (maxLength - overlap)) rest hrest i (by omega) hi
        exact ⟨c, by simp [hc], hmem⟩

theorem chunkWordsLoop_overlap (words : List String) (maxLength overlap : Nat)
    (hov : overlap < maxLength) :
    ∀ fuel start chunks,
      chunkWordsLoop words maxLength overlap fuel start = some chunks →
      ∀ i (hi1 : i + 1 < chunks.length),
        chunks[i + 1].take overlap = chunks[i].drop (chunks[i].length - overlap) := by
  intro fuel
  induction fuel with
  | zero => intro start chunks h; simp [chunkWordsLoop] at h
  | succ n ih =>
    intro start chunks h i hi1
    rw [chunkWordsLoop] at h
    by_cases hs : start < words.length
    · rw [if_pos hs] at h
      by_cases h2 : words.length ≤ min (start + maxLength) words.length
      · rw [if_pos h2, Option.some_inj] at h
        subst h
        simp at hi1
      · rw [if_neg h2, Option.map_eq_some'] at h
        obtain ⟨rest, hrest, hchunks⟩ := h
        subst hchunks
        have hlen : start + maxLength < words.length := by omega
        have he : min (start + maxLength) words.length = start + maxLength := by omega
        cases i with
        | succ j =>
          have hj : j + 1 < rest.length := by
            simp at hi1
            omega
          have := ih (start + (maxLength - overlap)) rest hrest j hj
          simp only [List.getElem_cons_succ]
          exact this
        | zero =>
          have hr : 0 < rest.length := by
            simp at hi1
            omega
          -- peel one step of the recursion to expose the head of `rest`
          cases n with
          | zero => simp [chunkWordsLoop] at hrest
          | succ m =>
            rw [chunkWordsLoop] at hrest
            have hs2 : start + (maxLength - overlap) < words.length := by omega
            rw [if_pos hs2] at hrest
            have hwin : ∀ hr0 : 0 < rest.length,
                rest[0] = window words (start + (maxLength - overlap))
                  (min (start + (maxLength - overlap) + maxLength) words.length) := by
              by_cases h3 : words.length ≤
                  min (start + (maxLength - overlap) + maxLength) words.length
              · rw [if_pos h3, Option.some_inj] at hrest
                subst hrest
                intro hr0
                simp
              · rw [if_neg h3, Option.map_eq_some'] at hrest
                obtain ⟨rest2, _, hr2⟩ := hrest
                subst hr2
                intro hr0
                simp
            simp only [List.getElem_cons_succ, List.getElem_cons_zero, hwin hr]
            simp only [window, he]
            rw [List.take_take, List.drop_take, List.drop_drop]
            have harith1 :
                min overlap ((min (start + (maxLength - overlap) + maxLength) words.length)
                  - (start + (maxLength - overlap))) = overlap := by
              omega
            have harith2 :
                ((words.drop start).take (start + maxLength - start)).length = maxLength := by
              simp [List.length_take, List.length_drop]
              omega
            rw [harith1, harith2]
            congr 1
            omega
    · rw [if_neg hs, Option.some_inj] at h
      subst h
      simp at hi1

/-! ### Lemmas about the sentence and paragraph chunking loops -/

theorem chunkSentencesLoop_covers (maxLength overlap : Nat) :
    ∀ sentences cur curLen x, (x ∈ cur ∨ x ∈ sentences) →
      ∃ c ∈ chunkSentencesLoop maxLength overlap cur curLen sentences, x ∈ c := by
  intro sentences
  induction sentences with
  | nil =>
    intro cur curLen x hx
    rcases hx with hx | hx
    · have hne : cur ≠ [] := by intro hcur; subst hcur; simp at hx
      rw [chunkSentencesLoop]
      simp [hne]
      exact hx
    · simp at hx
  | cons s rest ih =>
    intro cur curLen x hx
    rw [chunkSentencesLoop]
    by_cases hc : maxLength < curLen + wordCount s ∧ cur ≠ []
    · rw [if_pos hc]
      rcases hx with hx | hx
      · exact ⟨cur, by simp, hx⟩
      · rcases List.mem_cons.mp hx with hx | hx
        · subst hx
          obtain ⟨c, hc2, hm⟩ := ih (overlapTail overlap cur ++ [x])
            (weightSum (overlapTail overlap cur) + wordCount x) x (Or.inl (by simp))
          exact ⟨c, by simp [hc2], hm⟩
        · obtain ⟨c, hc2, hm⟩ := ih (overlapTail overlap cur ++ [s])
            (weightSum (overlapTail overlap cur) + wordCount s) x (Or.inr hx)
          exact ⟨c, by simp [hc2], hm⟩
    · rw [if_neg hc]
      rcases hx with hx | hx
      · exact ih (cur ++ [s]) (curLen + wordCount s) x (Or.inl (by simp [hx]))
      · rcases List.mem_cons.mp hx with hx | hx
        · subst hx
          exact ih (cur ++ [x]) (curLen + wordCount x) x (Or.inl (by simp))
        · exact ih (cur ++ [s]) (curLen + wordCount s) x (Or.inr hx)

theorem chunkParagraphsLoop_covers (maxLength : Nat) :
    ∀ paragraphs cur curLen x, (x ∈ cur ∨ x ∈ paragraphs) →
      ∃ c ∈ chunkParagraphsLoop maxLength cur curLen paragraphs, x ∈ c := by
  intro paragraphs
  induction paragraphs with
  | nil =>
    intro cur curLen x hx
    rcases hx with hx | hx
    · have hne : cur ≠ [] := by intro hcur; subst hcur; simp at hx
      rw [chunkParagraphsLoop]
      simp [hne]
      exact hx
    · simp at hx
  | cons p rest ih =>
    intro cur curLen x hx
    rw [chunkParagraphsLoop]
    by_cases hc : maxLength < curLen + wordCount p ∧ cur ≠ []
    · rw [if_pos hc]
      rcases hx with hx | hx
      · exact ⟨cur, by simp, hx⟩
      · rcases List.mem_cons.mp hx with hx | hx
        · subst hx
          obtain ⟨c, hc2, hm⟩ := ih [x] (wordCount x) x (Or.inl (by simp))
          exact ⟨c, by simp [hc2], hm⟩
        · obtain ⟨c, hc2, hm⟩ := ih [p] (wordCount p) x (Or.inr hx)
          exact ⟨c, by simp [hc2], hm⟩
    · rw [if_neg hc]
      rcases hx with hx | hx
      · exact ih (cur ++ [p]) (curLen + wordCount p) x (Or.inl (by simp [hx]))
      · rcases List.mem_cons.mp hx with hx | hx
        · subst hx
          exact ih (cur ++ [x]) (curLen + wordCount x) x (Or.inl (by simp))
        · exact ih (cur ++ [p]) (curLen + wordCount p) x (Or.inr hx)

/-! ### Claim theorems for the chunker -/

/-- **C2**: for any input text and any of the three chunking strategies
(word, sentence, paragraph), every unit of the input — every word of the
split word sequence, every extracted sentence, every paragraph — appears in
at least one emitted chunk, so concatenating all chunk contents (ignoring the
duplication introduced by overlap) reconstructs the full unit sequence: no
unit of the input is dropped.  (The word strategy needs `overlap <
max_length` for its loop to terminate at all.) -/
theorem chunk_coverage (text : String) (maxLength overlap : Nat)
    (h : overlap < maxLength) :
    (∀ w ∈ pySplit text,
      ∃ c ∈ (chunk_by_words (pySplit text) maxLength overlap).getD [], w ∈ c) ∧
    (∀ s ∈ extract_sentences text,
      ∃ c ∈ chunk_by_sentences (extract_sentences text) maxLength overlap, s ∈ c) ∧
    (∀ p ∈ pyParagraphs text,
      ∃ c ∈ chunk_by_paragraphs (pyParagraphs text) maxLength, p ∈ c) := by
  refine ⟨?_, ?_, ?_⟩
  · intro w hw
    have hsome := chunkWordsLoop_isSome (pySplit text) maxLength overlap h
      ((pySplit text).length + 1) 0 (by omega)
    obtain ⟨chunks, hc⟩ := Option.isSome_iff_exists.mp hsome
    have hcw : chunk_by_words (pySplit text) maxLength overlap = some chunks := hc
    rw [hcw]
    obtain ⟨i, hi, hwi⟩ := List.mem_iff_getElem.mp hw
    obtain ⟨c, hcmem, hmem⟩ :=
      chunkWordsLoop_covers (pySplit text) maxLength overlap
        ((pySplit text).length + 1) 0 chunks hc i (Nat.zero_le i) hi
    refine ⟨c, hcmem, ?_⟩
    simpa [List.get_eq_getElem, hwi] using hmem
  · intro s hs
    exact chunkSentencesLoop_covers maxLength overlap (extract_sentences text) [] 0 s
      (Or.inr hs)
  · intro p hp
    exact chunkParagraphsLoop_covers maxLength (pyParagraphs text) [] 0 p (Or.inr hp)

/-- Witness for C2 at a concrete text, `max_length = 3`, `overlap = 1`:
one concrete unit of each kind lands in some emitted chunk. -/
theorem chunk_coverage_witness :
    (∃ c ∈ (chunk_by_words (pySplit demoText) 3 1).getD [], "beta" ∈ c) ∧
    (∃ c ∈ chunk_by_sentences (extract_sentences demoText) 3 1,
      "This is a long sentence" ∈ c) ∧
    (∃ c ∈ chunk_by_paragraphs (pyParagraphs demoText) 3, pyStrip demoText ∈ c) := by
  obtain ⟨h1, h2, h3⟩ := chunk_coverage demoText 3 1 (by omega)
  exact ⟨h1 "beta" (by decide), h2 "This is a long sentence" (by decide),
    h3 (pyStrip demoText) (by decide)⟩

/-- **C4**: for word-strategy chunking with `max_length = 300` and
`overlap = 50`, whenever chunk `i+1` exists, its first 50 words equal, in
order, the last 50 words of chunk `i`. -/
theorem word_chunk_overlap_300_50 (words : List String) (chunks : List (List String))
    (h : chunk_by_words words 300 50 = some chunks) (i : Nat)
    (hi : i + 1 < chunks.length) :
    chunks[i + 1].take 50 = chunks[i].drop (chunks[i].length - 50) :=
  chunkWordsLoop_overlap words 300 50 (by omega) (words.length + 1) 0 chunks h i hi

/-- Witness for C4 on a concrete 301-word document: the word chunker emits
exactly two chunks and the second chunk's first 50 words are the first
chunk's last 50 words. -/
theorem word_chunk_overlap_witness :
    demoWordChunks[1].take 50 =
      demoWordChunks[0].drop (demoWordChunks[0].length - 50) :=
  word_chunk_overlap_300_50 demoWords demoWordChunks (by decide) 0 (by decide)

/-- **C9**: under the precondition `overlap < max_length`, word-strategy
chunking terminates on every input: the loop, run with fuel
`words.length + 1`, always finishes (each iteration either reaches the end of
the word sequence or strictly advances the window start by
`max_length - overlap > 0`). -/
theorem chunk_by_words_terminates (words : List String) (maxLength overlap : Nat)
    (h : overlap < maxLength) :
    (chunk_by_words words maxLength overlap).isSome :=
  chunkWordsLoop_isSome words maxLength overlap h (words.length + 1) 0 (by omega)

/-- Witness for C9: the chunker terminates on a concrete 301-word document
with `max_length = 300`, `overlap = 50`. -/
theorem chunk_by_words_terminates_witness :
    (chunk_by_words demoWords 300 50).isSome :=
  chunk_by_words_terminates demoWords 300 50 (by omega)

/-! ### Lemmas about the in-memory cache -/

theorem memSet_length (k v : String) (ts : Nat) :
    ∀ l : List MemEntry, (memSet k v ts l).length ≤ l.length + 1 := by
  intro l
  induction l with
  | nil => simp [memSet]
  | cons e es ih =>
    rw [memSet]
    by_cases h : e.key = k
    · simp [h]
    · simp only [h, if_false, List.length_cons]
      omega

theorem memDelete_length_le (k : String) :
    ∀ l : List MemEntry, (memDelete k l).length ≤ l.length := by
  intro l
  induction l with
  | nil => simp [memDelete]
  | cons e es ih =>
    rw [memDelete]
    by_cases h : e.key = k
    · simp [h]
    · simp only [h, if_false, List.length_cons]
      omega

theorem oldestAux_mem : ∀ (l : List MemEntry) (best : MemEntry),
    oldestAux best l ∈ best :: l := by
  intro l
  induction l with
  | nil => intro best; simp [oldestAux]
  | cons e es ih =>
    intro best
    rw [oldestAux]
    by_cases h : e.timestamp < best.timestamp
    · rw [if_pos h]
      rcases List.mem_cons.mp (ih e) with h2 | h2
      · simp [h2]
      · simp [h2]
    · rw [if_neg h]
      rcases List.mem_cons.mp (ih best) with h2 | h2
      · simp [h2]
      · simp [h2]

theorem memDelete_length_of_mem (k : String) :
    ∀ l : List MemEntry, (∃ e ∈ l, e.key = k) →
      (memDelete k l).length + 1 = l.length := by
  intro l
  induction l with
  | nil => intro h; simp at h
  | cons e es ih =>
    intro h
    rw [memDelete]
    by_cases hk : e.key = k
    · simp [hk]
    · simp only [hk, if_false, List.length_cons]
      obtain ⟨w, hw, hwk⟩ := h
      rcases List.mem_cons.mp hw with hw | hw
      · subst hw; exact absurd hwk hk
      · have := ih ⟨w, hw, hwk⟩
        omega

theorem InMemoryCache.set_length (c : InMemoryCache) (k v : String) (now : Nat)
    (h1 : 1 ≤ c.max_size) (h2 : c.cache.length ≤ c.max_size) :
    (c.set k v now).cache.length ≤ c.max_size := by
  obtain ⟨cache, max_size, ttl⟩ := c
  simp only [InMemoryCache.set] at h1 h2 ⊢
  by_cases hcap : max_size ≤ cache.length
  · rw [if_pos hcap]
    match cache, h2, hcap with
    | [], h2, hcap => simp at hcap; omega
    | e :: es, h2, hcap =>
      have hmem : oldestAux e es ∈ e :: es := oldestAux_mem es e
      have hdel := memDelete_length_of_mem (oldestAux e es).key (e :: es)
        ⟨oldestAux e es, hmem, rfl⟩
      have hset := memSet_length k v now (memDelete (oldestAux e es).key (e :: es))
      simp only [List.length_cons] at h2 hdel ⊢
      omega
  · rw [if_neg hcap]
    have hset := memSet_length k v now cache
    omega

theorem runOp_max_size (c : InMemoryCache) (op : CacheOp) :
    (runOp c op).max_size = c.max_size := by
  cases op with
  | get k now =>
    rw [runOp, InMemoryCache.get]
    cases memLookup k c.cache with
    | none => rfl
    | some e =>
      by_cases h : now - e.timestamp < c.ttl
      · simp [h]
      · simp [h]
  | set k v now => rfl
  | del k => rfl

theorem runOp_length (c : InMemoryCache) (op : CacheOp)
    (h1 : 1 ≤ c.max_size) (h2 : c.cache.length ≤ c.max_size) :
    (runOp c op).cache.length ≤ c.max_size := by
  cases op with
  | get k now =>
    rw [runOp, InMemoryCache.get]
    cases memLookup k c.cache with
    | none => exact h2
    | some e =>
      by_cases h : now - e.timestamp < c.ttl
      · simpa [h] using h2
      · simp only [h, if_false]
        have := memDelete_length_le k c.cache
        omega
  | set k v now => exact c.set_length k v now h1 h2
  | del k =>
    rw [runOp, InMemoryCache.delete]
    show (memDelete k c.cache).length ≤ c.max_size
    have := memDelete_length_le k c.cache
    omega

/-! ### Claim theorems for the caches -/

/-- **C1** (counterexample): the claim that `invalidate([2])` removes every
cache entry whose stored document set included id `2` is false: an entry
written for the document set `[1, 2]` has id `2` in its document set, yet
`invalidate_document_cache([2])` leaves the cache state `[entryFor12]`
unchanged, because deletion matches the documents-hash of exactly `[2]`. -/
theorem invalidate_includes_counterexample :
    (2 : Int) ∈ entryFor12.documents_hash ∧
    invalidate_document_cache true [2] [entryFor12] = [entryFor12] := by
  decide

/-- **C1** (amended): for every cache state, `invalidate(ids)` removes
exactly the entries whose documents-hash equals the hash of the given id
list — i.e. whose stored document set is exactly `sorted(ids)` — and leaves
every other entry in place, in order (the result is a sublist of the input
state). -/
theorem invalidate_exact_scope (document_ids : List Int)
    (db : List QueryCacheEntry) :
    (invalidate_document_cache true document_ids db).Sublist db ∧
    ∀ e, e ∈ invalidate_document_cache true document_ids db ↔
      e ∈ db ∧ e.documents_hash ≠ generate_documents_hash document_ids := by
  constructor
  · rw [invalidate_document_cache, if_pos rfl]
    exact List.filter_sublist db
  · intro e
    rw [invalidate_document_cache, if_pos rfl]
    simp [List.mem_filter]

/-- **C10**: for the in-memory TTL cache with `max_size ≥ 1`, starting from
any state within capacity, no sequence of get/set/delete operations ever
grows the cache beyond `max_size` entries: `set` at capacity first evicts
the entry with the oldest timestamp before inserting. -/
theorem inmemory_cache_bounded (c : InMemoryCache) (ops : List CacheOp)
    (h1 : 1 ≤ c.max_size) (h2 : c.cache.length ≤ c.max_size) :
    (runOps c ops).cache.length ≤ c.max_size := by
  induction ops generalizing c with
  | nil => simpa [runOps] using h2
  | cons op ops ih =>
    rw [runOps]
    have hmax := runOp_max_size c op
    have hstep := runOp_length c op h1 h2
    have := ih (runOp c op) (by omega) (by omega)
    omega

/-- Witness for C10: a concrete run on a cache of capacity 1 — two inserts,
a get and a delete — never exceeds one entry. -/
theorem inmemory_cache_bounded_witness :
    (runOps ⟨[], 1, 300⟩
      [CacheOp.set "a" "x" 0, CacheOp.set "b" "y" 1,
       CacheOp.get "b" 2, CacheOp.del "a"]).cache.length ≤ 1 :=
  inmemory_cache_bounded ⟨[], 1, 300⟩ _ (by decide) (by decide)

/-! ### Claim theorems for the hybrid orchestrator and the index store -/

/-- **C7**: dispatching the orchestrator with `strategy = "semantic"` returns
exactly the Semantic Searcher's ranked `(chunk_id, score)` list — same ids,
same scores, same order, tagged `"semantic"` — and `strategy = "keyword"`
returns exactly the Keyword Searcher's ranking with each corpus index mapped
to its chunk id, tagged `"keyword"`. -/
theorem strategy_dispatch_exact (chunks : List DocumentChunk) (kw sw : ℚ)
    (kRes sRes : List (Nat × ℚ)) (topK : Nat)
    (hidx : ∀ p ∈ kRes, p.1 < chunks.length) :
    hybridSearcherSearch chunks kw sw kRes sRes topK "semantic" =
      sRes.map (fun p => (p.1, p.2, "semantic")) ∧
    (∀ i (hi : i < sRes.length),
      ∃ hs2 : i < (hybridSearcherSearch chunks kw sw kRes sRes topK "semantic").length,
        (hybridSearcherSearch chunks kw sw kRes sRes topK "semantic").get ⟨i, hs2⟩ =
          ((sRes.get ⟨i, hi⟩).1, (sRes.get ⟨i, hi⟩).2, "semantic")) ∧
    (hybridSearcherSearch chunks kw sw kRes sRes topK "keyword").length = kRes.length ∧
    ∀ i (hi : i < kRes.length),
      ∃ hlt : (kRes.get ⟨i, hi⟩).1 < chunks.length,
      ∃ hk2 : i < (hybridSearcherSearch chunks kw sw kRes sRes topK "keyword").length,
        (hybridSearcherSearch chunks kw sw kRes sRes topK "keyword").get ⟨i, hk2⟩ =
          ((chunks.get ⟨(kRes.get ⟨i, hi⟩).1, hlt⟩).id, (kRes.get ⟨i, hi⟩).2,
            "keyword") := by
  have hsem : hybridSearcherSearch chunks kw sw kRes sRes topK "semantic" =
      sRes.map (fun p => (p.1, p.2, "semantic")) := by
    rw [hybridSearcherSearch, if_neg (by decide), if_pos rfl]
  have hkey : hybridSearcherSearch chunks kw sw kRes sRes topK "keyword" =
      kRes.map (fun p =>
        (((chunks[p.1]?).map DocumentChunk.id).getD 0, p.2, "keyword")) := by
    rw [hybridSearcherSearch, if_pos rfl]
  refine ⟨hsem, ?_, ?_, ?_⟩
  · intro i hi
    refine ⟨by simpa [hsem] using hi, ?_⟩
    simp [hsem, List.get_eq_getElem, List.getElem_map]
  · simp [hkey]
  · intro i hi
    have hlt : (kRes.get ⟨i, hi⟩).1 < chunks.length :=
      hidx (kRes.get ⟨i, hi⟩) (kRes.get_mem i hi)
    refine ⟨hlt, by simp [hkey, hi], ?_⟩
    have hlt2 : kRes[i].1 < chunks.length := hlt
    have h0 : chunks[kRes[i].1]? = some chunks[kRes[i].1] :=
      List.getElem?_eq_getElem hlt2
    simp [hkey, List.get_eq_getElem, List.getElem_map, h0]

/-- Witness for C7 at concrete chunks and rankings: the semantic dispatch is
the tagged semantic list, and the keyword dispatch has one row per keyword
result. -/
theorem strategy_dispatch_witness :
    hybridSearcherSearch demoSearchChunks (3/10) (7/10) demoKRes demoSRes 10
      "semantic" = demoSRes.map (fun p => (p.1, p.2, "semantic")) ∧
    (hybridSearcherSearch demoSearchChunks (3/10) (7/10) demoKRes demoSRes 10
      "keyword").length = demoKRes.length := by
  have h := strategy_dispatch_exact demoSearchChunks (3/10) (7/10) demoKRes demoSRes 10
    (by decide)
  exact ⟨h.1, h.2.2.1⟩

/-- Concatenation over a document list equals concatenation over the
sub-list of documents whose contribution is nonempty-able: documents mapped
to `[]` can be filtered away. -/
theorem flatMap_filter_of_empty {α β : Type} (f : α → List β) (q : α → Bool)
    (h : ∀ a, q a = false → f a = []) :
    ∀ l : List α, l.flatMap f = (l.filter q).flatMap f := by
  intro l
  induction l with
  | nil => rfl
  | cons a as ih =>
    cases hq : q a
    · simp [List.filter_cons, hq, h a hq, ih]
    · simp [List.filter_cons, hq]
      exact ih

/-- **C8**: a per-document similarity search over a document list where some
listed documents have no index artifact raises no error and returns exactly
the ranked results of the documents whose indexes exist: the overall search
equals the search restricted to the present documents. -/
theorem missing_document_resilience (fs : List (String × DocIndex))
    (doc_paths : List String) (k : Nat) :
    search_similar_chunks fs doc_paths k =
      search_similar_chunks fs
        (doc_paths.filter (fun p => (lookupFs fs (basename p)).isSome)) k := by
  unfold search_similar_chunks
  rw [flatMap_filter_of_empty (searchOneDoc fs k)
    (fun p => (lookupFs fs (basename p)).isSome)]
  intro a ha
  rw [searchOneDoc]
  rcases hl : lookupFs fs (basename a) with _ | d
  · rfl
  · rw [hl] at ha
    simp at ha

/-- **C5**: every successful per-document index build from a non-empty chunk
list persists a metadata list whose length equals the number of vector rows,
and for every position `i` the `content` field of the `i`-th metadata record
is exactly the text embedded (and then normalized) to produce vector row
`i`. -/
theorem index_positional_correspondence (V : Type) (encode : String → V)
    (normalizeL2 : V → V) (file_path : String) (document_id : Option Int)
    (chunks : List ChunkIn) (built : BuiltIndex V)
    (h : create_faiss_index_with_metadata V encode normalizeL2 file_path
      document_id chunks = some built) :
    built.metadata.length = built.vectors.length ∧
    ∀ i (hi : i < built.metadata.length),
      ∃ hv : i < built.vectors.length,
        built.vectors.get ⟨i, hv⟩ =
          normalizeL2 (encode ((built.metadata.get ⟨i, hi⟩).content)) := by
  rw [create_faiss_index_with_metadata] at h
  by_cases hc : chunks.map contentOf = []
  · rw [if_pos hc] at h
    exact absurd h (by simp)
  · rw [if_neg hc, Option.some_inj] at h
    subst h
    constructor
    · simp
    · intro i hi
      simp only [List.length_map, List.enum_length] at hi
      refine ⟨by simpa using hi, ?_⟩
      simp [List.get_eq_getElem, List.getElem_map, List.getElem_enum]

/-- Witness for C5: a concrete two-chunk build produces two metadata records
and two vector rows. -/
theorem index_positional_witness :
    demoBuilt.metadata.length = demoBuilt.vectors.length :=
  (index_positional_correspondence String (fun s => s ++ "*") id "up/f.pdf"
    (some 3) demoBuiltChunks demoBuilt (by decide)).1

/-! ### Lemmas about the stable descending sort and the re-ranking walk -/

theorem insertDescBy_mem {α : Type} (key : α → ℚ) (x : α) :
    ∀ (l : List α) (a : α), a ∈ insertDescBy key x l ↔ a = x ∨ a ∈ l := by
  intro l
  induction l with
  | nil => intro a; simp [insertDescBy]
  | cons y ys ih =>
    intro a
    rw [insertDescBy]
    by_cases h : key x ≤ key y
    · rw [if_pos h]
      simp only [List.mem_cons, ih]
      tauto
    · rw [if_neg h]
      simp only [List.mem_cons]

theorem insertDescBy_sorted {α : Type} (key : α → ℚ) (x : α) :
    ∀ l : List α, l.Pairwise (fun a b => key b ≤ key a) →
      (insertDescBy key x l).Pairwise (fun a b => key b ≤ key a) := by
  intro l
  induction l with
  | nil => intro _; simp [insertDescBy]
  | cons y ys ih =>
    intro hp
    rw [List.pairwise_cons] at hp
    obtain ⟨hy, hys⟩ := hp
    rw [insertDescBy]
    by_cases h : key x ≤ key y
    · rw [if_pos h, List.pairwise_cons]
      constructor
      · intro a ha
        rcases (insertDescBy_mem key x ys a).mp ha with rfl | ha
        · exact h
        · exact hy a ha
      · exact ih hys
    · rw [if_neg h, List.pairwise_cons]
      constructor
      · intro a ha
        rcases List.mem_cons.mp ha with rfl | ha
        · exact le_of_lt (lt_of_not_le h)
        · exact le_trans (hy a ha) (le_of_lt (lt_of_not_le h))
      · exact List.pairwise_cons.mpr ⟨hy, hys⟩

theorem sortDescBy_sorted {α : Type} (key : α → ℚ) (l : List α) :
    (sortDescBy key l).Pairwise (fun a b => key b ≤ key a) := by
  rw [sortDescBy]
  have hgen : ∀ (m acc : List α), acc.Pairwise (fun a b => key b ≤ key a) →
      (m.foldl (fun acc x => insertDescBy key x acc) acc).Pairwise
        (fun a b => key b ≤ key a) := by
    intro m
    induction m with
    | nil => intro acc h; simpa using h
    | cons x xs ih => intro acc h; exact ih _ (insertDescBy_sorted key x acc h)
  exact hgen l [] (by simp)

theorem penalizeWalk_length (chunks : List DocumentChunk) :
    ∀ (results : List (Nat × ℚ × String)) (used : List Nat),
      (∀ r ∈ results, chunkById chunks r.1 ≠ none) →
      (penalizeWalk chunks used results).length = results.length := by
  intro results
  induction results with
  | nil => intro used _; rfl
  | cons r rest ih =>
    intro used h
    rcases hc : chunkById chunks r.1 with _ | c
    · exact absurd hc (h r (by simp))
    · rw [penalizeWalk, hc]
      simp only [List.length_cons]
      rw [ih (c.document_id :: used) (fun x hx => h x (by simp [hx]))]

theorem penalizeWalk_spec (chunks : List DocumentChunk) :
    ∀ (results : List (Nat × ℚ × String)) (used : List Nat),
      (∀ r ∈ results, chunkById chunks r.1 ≠ none) →
      ∀ i (hi : i < results.length),
        ∃ d, docIdOf chunks (results[i].1) = some d ∧
        ∃ hp : i < (penalizeWalk chunks used results).length,
        ((d ∈ used ∨ ∃ k, ∃ hk : k < i,
            docIdOf chunks (results[k].1) = some d) →
          (penalizeWalk chunks used results)[i] =
            (results[i].1, results[i].2.1 * (47/50), results[i].2.2)) ∧
        (¬(d ∈ used ∨ ∃ k, ∃ hk : k < i,
            docIdOf chunks (results[k].1) = some d) →
          (penalizeWalk chunks used results)[i] = results[i]) := by
  intro results
  induction results with
  | nil => intro used _ i hi; exact absurd hi (by simp)
  | cons r rest ih =>
    intro used h i hi
    rcases hc : chunkById chunks r.1 with _ | c
    · exact absurd hc (h r (by simp))
    · have hwalk : penalizeWalk chunks used (r :: rest) =
          (r.1, r.2.1 * (1 - (if c.document_id ∈ used then (3 : ℚ)/10 else 0)
            * (2/10)), r.2.2) :: penalizeWalk chunks (c.document_id :: used) rest := by
        rw [penalizeWalk, hc]
      have hdr : docIdOf chunks r.1 = some c.document_id := by
        rw [docIdOf, hc]
        rfl
      cases i with
      | zero =>
        refine ⟨c.document_id, by simpa using hdr, ?_⟩
        refine ⟨by rw [hwalk]; simp, ?_, ?_⟩
        · intro hcond
          have hmem : c.document_id ∈ used := by
            rcases hcond with hm | ⟨k, hk, _⟩
            · exact hm
            · omega
          simp only [hwalk, List.getElem_cons_zero]
          rw [if_pos hmem]
          norm_num
        · intro hcond
          have hmem : c.document_id ∉ used := fun hm => hcond (Or.inl hm)
          simp only [hwalk, List.getElem_cons_zero]
          rw [if_neg hmem]
          norm_num
      | succ j =>
        have hj : j < rest.length := by simpa using hi
        obtain ⟨d, hd, hp, hseen, hunseen⟩ := ih (c.document_id :: used)
          (fun x hx => h x (by simp [hx])) j hj
        have hcond_iff :
            (d ∈ used ∨ ∃ k, ∃ hk : k < j + 1,
              docIdOf chunks ((r :: rest)[k].1) = some d) ↔
            (d ∈ c.document_id :: used ∨ ∃ k, ∃ hk : k < j,
              docIdOf chunks (rest[k].1) = some d) := by
          constructor
          · rintro (hm | ⟨k, hk, hdk⟩)
            · exact Or.inl (List.mem_cons_of_mem _ hm)
            · cases k with
              | zero =>
                rw [List.getElem_cons_zero] at hdk
                rw [hdr] at hdk
                exact Or.inl (by simp [Option.some_inj.mp hdk])
              | succ m =>
                rw [List.getElem_cons_succ] at hdk
                exact Or.inr ⟨m, by omega, hdk⟩
          · rintro (hm | ⟨k, hk, hdk⟩)
            · rcases List.mem_cons.mp hm with rfl | hm
              · refine Or.inr ⟨0, by omega, ?_⟩
                rw [List.getElem_cons_zero, hdr]
              · exact Or.inl hm
            · exact Or.inr ⟨k + 1, by omega, by rw [List.getElem_cons_succ]; exact hdk⟩
        refine ⟨d, by simpa using hd, ?_⟩
        refine ⟨by rw [hwalk]; simpa using hp, ?_, ?_⟩
        · intro hcond
          simp only [hwalk, List.getElem_cons_succ]
          exact hseen (hcond_iff.mp hcond)
        · intro hcond
          simp only [hwalk, List.getElem_cons_succ]
          exact hunseen (fun hx => hcond (hcond_iff.mpr hx))

/-! ### Claim theorems for the re-ranker -/

/-- **C3** (counterexample): the claim that a repeated-document result has
its score multiplied by `0.7` is false.  With two results from the same
document (scores `1` and `1/2`), the code multiplies the second score by
`1 - 0.3 * 0.2 = 0.94`, giving `47/100`, whereas a `0.7` multiplier would
give `7/10 * 1/2 = 7/20`. -/
theorem rerank_penalty_07_counterexample :
    rerank_results [(1, 1, "hybrid"), (2, 1/2, "hybrid")]
        [⟨1, 5, "a"⟩, ⟨2, 5, "b"⟩] =
      [(1, 1, "hybrid"), (2, 47/100, "hybrid")] ∧
    ((47 : ℚ)/100) ≠ (7/10) * (1/2) := by
  constructor
  · rw [rerank_results, if_neg (by simp)]
    norm_num [penalizeWalk, chunkById, sortDescBy, insertDescBy]
  · norm_num

/-- **C3** (amended): in the diversity re-ranking pass, every result whose
source document already appeared earlier in the greedy walk has its score
multiplied by `1 - 0.3 * 0.2 = 0.94` (`diversity_weight = 0.2` scaling of
the `0.3` penalty), the first result from each document keeps its score
unchanged, and the walked list is then re-sorted descending by penalized
score with ties retaining their prior relative order (the sort is modelled
by a stable descending insertion sort). -/
theorem rerank_diversity_094 (results : List (Nat × ℚ × String))
    (chunks : List DocumentChunk)
    (hfound : ∀ r ∈ results, chunkById chunks r.1 ≠ none) :
    rerank_results results chunks =
      sortDescBy (fun t => t.2.1) (penalizeWalk chunks [] results) ∧
    (rerank_results results chunks).Pairwise (fun a b => b.2.1 ≤ a.2.1) ∧
    (penalizeWalk chunks [] results).length = results.length ∧
    ∀ i (hi : i < results.length),
      ∃ hp : i < (penalizeWalk chunks [] results).length,
      ((∃ k, ∃ hk : k < i,
          docIdOf chunks (results[k].1) = docIdOf chunks (results[i].1)) →
        (penalizeWalk chunks [] results)[i] =
          (results[i].1, results[i].2.1 * (47/50), results[i].2.2)) ∧
      (¬(∃ k, ∃ hk : k < i,
          docIdOf chunks (results[k].1) = docIdOf chunks (results[i].1)) →
        (penalizeWalk chunks [] results)[i] = results[i]) := by
  have heq : rerank_results results chunks =
      sortDescBy (fun t => t.2.1) (penalizeWalk chunks [] results) := by
    by_cases hres : results = []
    · subst hres
      rfl
    · rw [rerank_results, if_neg hres]
  refine ⟨heq, ?_, penalizeWalk_length chunks results [] hfound, ?_⟩
  · rw [heq]
    exact sortDescBy_sorted _ _
  · intro i hi
    obtain ⟨d, hd, hp, hseen, hunseen⟩ := penalizeWalk_spec chunks results [] hfound i hi
    refine ⟨hp, ?_, ?_⟩
    · intro hcond
      refine hseen (Or.inr ?_)
      obtain ⟨k, hk, hdk⟩ := hcond
      exact ⟨k, hk, by rw [hdk, hd]⟩
    · intro hcond
      refine hunseen ?_
      rintro (hm | ⟨k, hk, hdk⟩)
      · simp at hm
      · exact hcond ⟨k, hk, by rw [hdk, hd]⟩

/-- Witness for C3 (amended) on two same-document results: the re-ranked
output is sorted descending by penalized score. -/
theorem rerank_diversity_witness :
    (rerank_results [(1, 1, "hybrid"), (2, 1/2, "hybrid")]
        [⟨1, 5, "a"⟩, ⟨2, 5, "b"⟩]).Pairwise (fun a b => b.2.1 ≤ a.2.1) :=
  (rerank_diversity_094 [(1, 1, "hybrid"), (2, 1/2, "hybrid")]
    [⟨1, 5, "a"⟩, ⟨2, 5, "b"⟩] (by decide)).2.1

/-! ### Lemmas about `min`/`max` folds and score normalization -/

theorem foldl_min_le_init (s : ℚ) : ∀ l : List ℚ, l.foldl min s ≤ s := by
  intro l
  induction l generalizing s with
  | nil => exact le_refl s
  | cons x xs ih => exact le_trans (ih (min s x)) (min_le_left s x)

theorem foldl_min_le_mem (s a : ℚ) : ∀ l : List ℚ, a ∈ l → l.foldl min s ≤ a := by
  intro l
  induction l generalizing s with
  | nil => intro h; simp at h
  | cons x xs ih =>
    intro h
    rcases List.mem_cons.mp h with rfl | h
    · exact le_trans (foldl_min_le_init (min s a) xs) (min_le_right s a)
    · exact ih (min s x) h

theorem foldl_min_mem (s : ℚ) : ∀ l : List ℚ, l.foldl min s ∈ s :: l := by
  intro l
  induction l generalizing s with
  | nil => simp
  | cons x xs ih =>
    have := ih (min s x)
    rcases List.mem_cons.mp this with hm | hm
    · rcases min_choice s x with hc | hc
      · simp only [List.foldl_cons]
        rw [hm, hc]
        simp
      · simp only [List.foldl_cons]
        rw [hm, hc]
        simp
    · simp only [List.foldl_cons]
      simp [hm]

theorem foldl_max_init_le (s : ℚ) : ∀ l : List ℚ, s ≤ l.foldl max s := by
  intro l
  induction l generalizing s with
  | nil => exact le_refl s
  | cons x xs ih => exact le_trans (le_max_left s x) (ih (max s x))

theorem foldl_max_mem_le (s a : ℚ) : ∀ l : List ℚ, a ∈ l → a ≤ l.foldl max s := by
  intro l
  induction l generalizing s with
  | nil => intro h; simp at h
  | cons x xs ih =>
    intro h
    rcases List.mem_cons.mp h with rfl | h
    · exact le_trans (le_max_right s a) (foldl_max_init_le (max s a) xs)
    · exact ih (max s x) h

theorem foldl_max_mem (s : ℚ) : ∀ l : List ℚ, l.foldl max s ∈ s :: l := by
  intro l
  induction l generalizing s with
  | nil => simp
  | cons x xs ih =>
    have := ih (max s x)
    rcases List.mem_cons.mp this with hm | hm
    · rcases max_choice s x with hc | hc
      · simp only [List.foldl_cons]
        rw [hm, hc]
        simp
      · simp only [List.foldl_cons]
        rw [hm, hc]
        simp
    · simp only [List.foldl_cons]
      simp [hm]

theorem listMin_le (l : List ℚ) (a : ℚ) (ha : a ∈ l) : listMin l ≤ a := by
  cases l with
  | nil => simp at ha
  | cons x xs =>
    rcases List.mem_cons.mp ha with rfl | ha
    · exact foldl_min_le_init a xs
    · exact foldl_min_le_mem x a xs ha

theorem le_listMax (l : List ℚ) (a : ℚ) (ha : a ∈ l) : a ≤ listMax l := by
  cases l with
  | nil => simp at ha
  | cons x xs =>
    rcases List.mem_cons.mp ha with rfl | ha
    · exact foldl_max_init_le a xs
    · exact foldl_max_mem_le x a xs ha

theorem listMin_mem (l : List ℚ) (hne : l ≠ []) : listMin l ∈ l := by
  cases l with
  | nil => exact absurd rfl hne
  | cons x xs => exact foldl_min_mem x xs

theorem listMax_mem (l : List ℚ) (hne : l ≠ []) : listMax l ∈ l := by
  cases l with
  | nil => exact absurd rfl hne
  | cons x xs => exact foldl_max_mem x xs

theorem normalize_scores_length (l : List ℚ) :
    (normalize_scores l).length = l.length := by
  rw [normalize_scores]
  by_cases h : l = []
  · rw [if_pos h, h]
  · rw [if_neg h]
    by_cases h2 : listMax l = listMin l
    · rw [if_pos h2]
      simp
    · rw [if_neg h2]
      simp

theorem normalize_scores_getElem_const (l : List ℚ) (i : Nat) (hi : i < l.length)
    (hni : i < (normalize_scores l).length) (hcase : listMax l = listMin l) :
    (normalize_scores l)[i] = 1 := by
  have hne : l ≠ [] := by
    intro h
    subst h
    simp at hi
  simp only [normalize_scores, if_neg hne, if_pos hcase] at hni ⊢
  simp

theorem normalize_scores_getElem_div (l : List ℚ) (i : Nat) (hi : i < l.length)
    (hni : i < (normalize_scores l).length) (hcase : listMax l ≠ listMin l) :
    (normalize_scores l)[i] = (l[i] - listMin l) / (listMax l - listMin l) := by
  have hne : l ≠ [] := by
    intro h
    subst h
    simp at hi
  simp only [normalize_scores, if_neg hne, if_neg hcase] at hni ⊢
  simp

theorem normalize_mono (scores scoresN : List ℚ) (j : Nat) (hj : j < scores.length)
    (hlen : scoresN.length = scores.length)
    (hothers : ∀ i (hi : i < scores.length), i ≠ j → scoresN[i] = scores[i])
    (hincr : scores[j] < scoresN[j])
    (hnj : j < (normalize_scores scores).length)
    (hnjN : j < (normalize_scores scoresN).length) :
    (normalize_scores scores)[j] ≤ (normalize_scores scoresN)[j] := by
  have hjN : j < scoresN.length := by omega
  have hne : scores ≠ [] := by
    intro h
    subst h
    simp at hj
  have hneN : scoresN ≠ [] := by
    intro h
    subst h
    simp at hjN
  have hmn_le_j : listMin scores ≤ scores[j] := listMin_le _ _ (List.getElem_mem hj)
  have hj_le_mx : scores[j] ≤ listMax scores := le_listMax _ _ (List.getElem_mem hj)
  have hmnN_le_j : listMin scoresN ≤ scoresN[j] := listMin_le _ _ (List.getElem_mem hjN)
  have hjN_le_mxN : scoresN[j] ≤ listMax scoresN := le_listMax _ _ (List.getElem_mem hjN)
  have hmn_mono : listMin scores ≤ listMin scoresN := by
    obtain ⟨k, hk, hkv⟩ := List.mem_iff_getElem.mp (listMin_mem scoresN hneN)
    have hk2 : k < scores.length := by omega
    by_cases hkj : k = j
    · subst hkj
      calc listMin scores ≤ scores[k] := listMin_le _ _ (List.getElem_mem hk2)
        _ ≤ scoresN[k] := le_of_lt hincr
        _ = listMin scoresN := hkv
    · calc listMin scores ≤ scores[k] := listMin_le _ _ (List.getElem_mem hk2)
        _ = scoresN[k] := (hothers k hk2 hkj).symm
        _ = listMin scoresN := hkv
  have hmx_mono : listMax scores ≤ listMax scoresN := by
    obtain ⟨k, hk, hkv⟩ := List.mem_iff_getElem.mp (listMax_mem scores hne)
    have hkN : k < scoresN.length := by omega
    by_cases hkj : k = j
    · subst hkj
      calc listMax scores = scores[k] := hkv.symm
        _ ≤ scoresN[k] := le_of_lt hincr
        _ ≤ listMax scoresN := le_listMax _ _ (List.getElem_mem hkN)
    · calc listMax scores = scores[k] := hkv.symm
        _ = scoresN[k] := (hothers k hk hkj).symm
        _ ≤ listMax scoresN := le_listMax _ _ (List.getElem_mem hkN)
  have hmin_at_j : listMin scores < listMin scoresN → listMin scores = scores[j] := by
    intro hlt
    obtain ⟨k, hk, hkv⟩ := List.mem_iff_getElem.mp (listMin_mem scores hne)
    by_cases hkj : k = j
    · subst hkj
      exact hkv.symm
    · exfalso
      have hkN : k < scoresN.length := by omega
      have h1 : listMin scoresN ≤ scoresN[k] := listMin_le _ _ (List.getElem_mem hkN)
      rw [hothers k hk hkj, hkv] at h1
      exact absurd hlt (not_lt.mpr h1)
  have hmax_at_j : listMax scores < listMax scoresN → listMax scoresN = scoresN[j] := by
    intro hlt
    obtain ⟨k, hkN, hkv⟩ := List.mem_iff_getElem.mp (listMax_mem scoresN hneN)
    by_cases hkj : k = j
    · subst hkj
      exact hkv.symm
    · exfalso
      have hk : k < scores.length := by omega
      have h1 : scoresN[k] ≤ listMax scores := by
        rw [hothers k hk hkj]
        exact le_listMax _ _ (List.getElem_mem hk)
      rw [hkv] at h1
      exact absurd hlt (not_lt.mpr h1)
  by_cases hconst : listMax scores = listMin scores
  · rw [normalize_scores_getElem_const scores j hj hnj hconst]
    by_cases hconstN : listMax scoresN = listMin scoresN
    · rw [normalize_scores_getElem_const scoresN j hjN hnjN hconstN]
    · rw [normalize_scores_getElem_div scoresN j hjN hnjN hconstN]
      have hmxlt : listMax scores < listMax scoresN := by
        rcases lt_or_eq_of_le hmx_mono with h | h
        · exact h
        · exfalso
          have h1 : scores[j] = listMax scores :=
            le_antisymm hj_le_mx (hconst ▸ hmn_le_j)
          have h2 : listMax scoresN < scoresN[j] := by
            rw [← h, ← h1]
            exact hincr
          exact absurd hjN_le_mxN (not_le.mpr h2)
      have hmxj := hmax_at_j hmxlt
      have hdN : listMin scoresN < listMax scoresN :=
        lt_of_le_of_ne (le_trans hmnN_le_j hjN_le_mxN) (fun h => hconstN h.symm)
      have hself : (scoresN[j] - listMin scoresN) /
          (listMax scoresN - listMin scoresN) = 1 := by
        rw [← hmxj]
        exact div_self (ne_of_gt (sub_pos.mpr hdN))
      rw [hself]
  · have hmn_lt_mx : listMin scores < listMax scores :=
      lt_of_le_of_ne (le_trans hmn_le_j hj_le_mx) (fun h => hconst h.symm)
    have hdpos : (0 : ℚ) < listMax scores - listMin scores := sub_pos.mpr hmn_lt_mx
    rw [normalize_scores_getElem_div scores j hj hnj hconst]
    have hval_le_one :
        (scores[j] - listMin scores) / (listMax scores - listMin scores) ≤ 1 := by
      rw [div_le_one hdpos]
      exact sub_le_sub_right hj_le_mx _
    by_cases hconstN : listMax scoresN = listMin scoresN
    · rw [normalize_scores_getElem_const scoresN j hjN hnjN hconstN]
      exact hval_le_one
    · rw [normalize_scores_getElem_div scoresN j hjN hnjN hconstN]
      have hmnN_lt_mxN : listMin scoresN < listMax scoresN :=
        lt_of_le_of_ne (le_trans hmnN_le_j hjN_le_mxN) (fun h => hconstN h.symm)
      have hdposN : (0 : ℚ) < listMax scoresN - listMin scoresN := sub_pos.mpr hmnN_lt_mxN
      by_cases hmx_lt : listMax scores < listMax scoresN
      · have hmxj := hmax_at_j hmx_lt
        have hself : (scoresN[j] - listMin scoresN) /
            (listMax scoresN - listMin scoresN) = 1 := by
          rw [← hmxj]
          exact div_self (ne_of_gt hdposN)
        rw [hself]
        exact hval_le_one
      · have hmx_eq : listMax scoresN = listMax scores :=
          le_antisymm (not_lt.mp hmx_lt) hmx_mono
        by_cases hmn_lt : listMin scores < listMin scoresN
        · have hmnj := hmin_at_j hmn_lt
          have hnum0 : scores[j] - listMin scores = 0 := by
            rw [← hmnj]
            exact sub_self _
          rw [hnum0, zero_div]
          exact div_nonneg (sub_nonneg.mpr hmnN_le_j) (le_of_lt hdposN)
        · have hmn_eq : listMin scoresN = listMin scores :=
          le_antisymm (not_lt.mp hmn_lt) hmn_mono
          rw [hmx_eq, hmn_eq]
          exact (div_le_div_right hdpos).mpr (sub_le_sub_right (le_of_lt hincr) _)

theorem dictGet_eq_none (key : Nat) :
    ∀ pairs : List (Nat × ℚ), key ∉ pairs.map Prod.fst → dictGet pairs key = none := by
  intro pairs
  induction pairs with
  | nil => intro _; rfl
  | cons p rest ih =>
    intro h
    obtain ⟨k, v⟩ := p
    simp only [List.map_cons, List.mem_cons] at h
    push_neg at h
    rw [dictGet, ih h.2]
    exact if_neg (fun hk => h.1 hk.symm)

theorem dictGet_pairs :
    ∀ (pairs : List (Nat × ℚ)) (j : Nat) (hj : j < pairs.length),
      (pairs.map Prod.fst).Nodup →
      dictGet pairs pairs[j].1 = some pairs[j].2 := by
  intro pairs
  induction pairs with
  | nil => intro j hj; simp at hj
  | cons p rest ih =>
    intro j hj hnodup
    obtain ⟨k, v⟩ := p
    simp only [List.map_cons, List.nodup_cons] at hnodup
    obtain ⟨hknot, hrest⟩ := hnodup
    cases j with
    | zero =>
      have hnone : dictGet rest k = none := dictGet_eq_none k rest hknot
      simp only [List.getElem_cons_zero]
      rw [dictGet, hnone]
      simp
    | succ m =>
      have hm : m < rest.length := by simpa using hj
      have hdm := ih m hm hrest
      simp only [List.getElem_cons_succ]
      rw [dictGet, hdm]

theorem buildSemanticScoreMap_length (sRes : List (Nat × ℚ)) (v : List ℚ) :
    (buildSemanticScoreMap sRes v).length = min sRes.length v.length := by
  simp [buildSemanticScoreMap]

theorem buildSemanticScoreMap_getElem (sRes : List (Nat × ℚ)) (v : List ℚ)
    (j : Nat) (hj : j < sRes.length) (hjv : j < v.length)
    (hjm : j < (buildSemanticScoreMap sRes v).length) :
    (buildSemanticScoreMap sRes v)[j] = (sRes[j].1, v[j]) := by
  simp [buildSemanticScoreMap, List.getElem_zip]

theorem buildSemanticScoreMap_fst (sRes : List (Nat × ℚ)) (v : List ℚ)
    (hlen : v.length = sRes.length) :
    (buildSemanticScoreMap sRes v).map Prod.fst = sRes.map Prod.fst := by
  apply List.ext_getElem
  · simp [buildSemanticScoreMap, hlen]
  · intro i h1 h2
    simp [buildSemanticScoreMap, List.getElem_zip]

theorem dictGet_semanticMap (sRes : List (Nat × ℚ)) (v : List ℚ) (j : Nat)
    (hj : j < sRes.length) (hlen : v.length = sRes.length)
    (hnodup : (sRes.map Prod.fst).Nodup) :
    dictGet (buildSemanticScoreMap sRes v) sRes[j].1 = some v[j] := by
  have hjv : j < v.length := by omega
  have hjm : j < (buildSemanticScoreMap sRes v).length := by
    rw [buildSemanticScoreMap_length]
    omega
  have hnodup2 : ((buildSemanticScoreMap sRes v).map Prod.fst).Nodup := by
    rw [buildSemanticScoreMap_fst sRes v hlen]
    exact hnodup
  have h := dictGet_pairs (buildSemanticScoreMap sRes v) j hjm hnodup2
  rw [buildSemanticScoreMap_getElem sRes v j hj hjv hjm] at h
  exact h

/-! ### Claim theorem for hybrid score monotonicity -/

/-- **C6**: with a fixed candidate set and fixed keyword scores, if one
chunk's raw semantic score strictly increases while every other raw score is
unchanged (same ids, same order, distinct ids), then that chunk's combined
hybrid score — independent min-max normalization of each method's score list
followed by `keyword_weight * keyword + semantic_weight * semantic` with
nonnegative weights — does not decrease. -/
theorem hybrid_score_monotone (chunks : List DocumentChunk) (kw sw : ℚ)
    (hkw : 0 ≤ kw) (hsw : 0 ≤ sw) (kRes : List (Nat × ℚ))
    (sRes sResN : List (Nat × ℚ)) (j : Nat) (hj : j < sRes.length)
    (hlen : sResN.length = sRes.length)
    (hids : ∀ i (hi : i < sRes.length), sResN[i].1 = sRes[i].1)
    (hothers : ∀ i (hi : i < sRes.length), i ≠ j → sResN[i].2 = sRes[i].2)
    (hincr : sRes[j].2 < sResN[j].2)
    (hnodup : (sRes.map Prod.fst).Nodup) :
    hybrid_combined_score chunks kw sw kRes sRes (sRes[j].1) ≤
      hybrid_combined_score chunks kw sw kRes sResN (sRes[j].1) := by
  have hjN : j < sResN.length := by omega
  have hslen : (sRes.map Prod.snd).length = sRes.length := by simp
  have hslenN : (sResN.map Prod.snd).length = sResN.length := by simp
  have hothers2 : ∀ i (hi : i < (sRes.map Prod.snd).length), i ≠ j →
      (sResN.map Prod.snd)[i] = (sRes.map Prod.snd)[i] := by
    intro i hi hij
    have hi2 : i < sRes.length := by omega
    have hi3 : i < sResN.length := by omega
    simp only [List.getElem_map]
    exact hothers i hi2 hij
  have hincr2 : (sRes.map Prod.snd)[j] < (sResN.map Prod.snd)[j] := by
    simp only [List.getElem_map]
    exact hincr
  have hv := dictGet_semanticMap sRes (normalize_scores (sRes.map Prod.snd)) j hj
    (by rw [normalize_scores_length]; omega) hnodup
  have hfsteq : sResN.map Prod.fst = sRes.map Prod.fst := by
    apply List.ext_getElem
    · simp [hlen]
    · intro i h1 h2
      simp only [List.getElem_map]
      exact hids i (by simpa using h2)
  have hnodupN : (sResN.map Prod.fst).Nodup := by
    rw [hfsteq]
    exact hnodup
  have hvN := dictGet_semanticMap sResN (normalize_scores (sResN.map Prod.snd)) j hjN
    (by rw [normalize_scores_length]; omega) hnodupN
  have hcid : sResN[j].1 = sRes[j].1 := hids j hj
  rw [hcid] at hvN
  rw [hybrid_combined_score, hybrid_combined_score, combined_score, combined_score,
    hv, hvN]
  simp only [Option.getD_some]
  exact add_le_add_left
    (mul_le_mul_of_nonneg_left
      (normalize_mono (sRes.map Prod.snd) (sResN.map Prod.snd) j (by omega)
        (by omega) hothers2 hincr2 (by rw [normalize_scores_length]; omega)
        (by rw [normalize_scores_length]; omega))
      hsw) _

/-- Witness for C6: raising chunk 1's raw semantic score from `1/2` to `3/4`
(keyword inputs empty, other scores fixed) does not decrease its combined
score. -/
theorem hybrid_score_monotone_witness :
    hybrid_combined_score [] (3/10) (7/10) [] [(1, 1/2), (2, 1/4)] 1 ≤
      hybrid_combined_score [] (3/10) (7/10) [] [(1, 3/4), (2, 1/4)] 1 := by
  have h := hybrid_score_monotone [] (3/10) (7/10) (by norm_num) (by norm_num) []
    [(1, 1/2), (2, 1/4)] [(1, 3/4), (2, 1/4)] 0 (by decide) (by decide)
    (by
      intro i hi
      have h2 : i < 2 := by simpa using hi
      interval_cases i
      · rfl
      · rfl)
    (by
      intro i hi hij
      have h2 : i < 2 := by simpa using hi
      interval_cases i
      · exact absurd rfl hij
      · rfl)
    (by norm_num)
    (by decide)
  exact h

end OmniRAG
